import Mathlib

/-!
# Verification of posy's `rfc822ish` metadata parser

A shallow embedding of `src/rfc822ish.rs`.  The entry point
`RFC822ish::parse` delegates to `parser_internals::parse_metadata`, which is
built from nom combinators; each combinator is translated below into a pure
function over `List Char`, keeping nom's exact semantics:

* `tag("\r\n").or(tag("\r")).or(tag("\n"))`  — `lineEnding`
* `take_while1(is_field_name_char)`          — `fieldName` (one-or-more)
* `tag(":").and(is_a(" \t"))`                — `fieldSeparator`
  (nom's `is_a` matches the longest *non-empty* run, so at least one
  space/tab is required after the colon)
* `is_not("\r\n")`                           — `valueLinePiece` (one-or-more)
* `line_ending.and(one_of(" \t"))`           — `continuationMarker`
* `separated_list1(marker, piece).recognize()` — `fieldValue`
  (`separated_list1` backtracks the separator when the following element
  fails; `recognize` returns the full consumed span, so line endings and the
  triggering space are kept verbatim in the value)
* `many1(field.terminated(line_ending))`     — `parseFields`
  (each field, including the last, must be followed by a line ending;
  `many1` stops before the first failing iteration, rolling that
  iteration's partial consumption back)
* `rest.preceded_by(line_ending)` + `.opt()` + `final_parser` — `RFC822ish.parse`
  (`final_parser` demands that the whole input be consumed)

Loops are written with fuel equal to the current input length; every
successful iteration of either loop consumes at least one character, so the
fuel never runs out before the input does and the fuel-exhausted branch
returns exactly what the no-more-iterations branch returns.
-/

abbrev Input := List Char

/-- `tag("\r\n").or(tag("\r")).or(tag("\n"))`: one line-ending token.
Returns the consumed characters and the remaining input. -/
def lineEnding : Input → Option (List Char × Input)
  | '\r' :: '\n' :: rest => some (['\r', '\n'], rest)
  | '\r' :: rest => some (['\r'], rest)
  | '\n' :: rest => some (['\n'], rest)
  | _ => none

/-- `is_field_name_char` from `parse_metadata`: code point in octal 41..176,
excluding the colon. -/
def is_field_name_char (c : Char) : Bool :=
  let i := c.toNat
  decide (0o41 ≤ i) && decide (i ≤ 0o176) && decide (c ≠ ':')

/-- `take_while1(is_field_name_char)`: longest non-empty prefix of
field-name characters. -/
def fieldName (inp : Input) : Option (List Char × Input) :=
  if inp.takeWhile is_field_name_char = [] then none
  else some (inp.takeWhile is_field_name_char, inp.dropWhile is_field_name_char)

def isSpaceTab (c : Char) : Bool :=
  c = ' ' || c = '\t'

/-- `tag(":").and(is_a(" \t"))`: a colon followed by the longest non-empty
run of spaces/tabs, all consumed and discarded. -/
def fieldSeparator (inp : Input) : Option Input :=
  match inp with
  | ':' :: rest =>
      if rest.takeWhile isSpaceTab = [] then none
      else some (rest.dropWhile isSpaceTab)
  | _ => none

def isLineEndChar (c : Char) : Bool :=
  c = '\r' || c = '\n'

/-- `is_not("\r\n")`: longest non-empty run of characters that are not
line-ending characters. -/
def valueLinePiece (inp : Input) : Option (List Char × Input) :=
  if inp.takeWhile (fun c => !isLineEndChar c) = [] then none
  else some (inp.takeWhile (fun c => !isLineEndChar c),
             inp.dropWhile (fun c => !isLineEndChar c))

/-- `line_ending.and(one_of(" \t"))`: a line ending immediately followed by a
space or tab; both are consumed and both belong to the recognized span. -/
def continuationMarker (inp : Input) : Option (List Char × Input) :=
  match lineEnding inp with
  | none => none
  | some (le, r) =>
      match r with
      | c :: r' => if isSpaceTab c then some (le ++ [c], r') else none
      | [] => none

/-- The loop of `separated_list1(continuation_marker, value_line_piece)`
after its first element: repeatedly parse a marker then a piece, stopping
(and backtracking the marker) as soon as either fails.  The accumulated
characters are the recognized span of the extra iterations. -/
def fieldValueLoop : Nat → Input → List Char × Input
  | 0, inp => ([], inp)
  | fuel + 1, inp =>
      match continuationMarker inp with
      | none => ([], inp)
      | some (con, r1) =>
          match valueLinePiece r1 with
          | none => ([], inp)
          | some (piece, r2) =>
              let (more, rest) := fieldValueLoop fuel r2
              (con ++ piece ++ more, rest)

/-- `separated_list1(continuation_marker, value_line_piece).recognize()`:
one piece, then any number of marker-piece pairs; the result is the whole
consumed span. -/
def fieldValue (inp : Input) : Option (List Char × Input) :=
  match valueLinePiece inp with
  | none => none
  | some (piece, r1) =>
      let (more, rest) := fieldValueLoop r1.length r1
      some (piece ++ more, rest)

/-- `separated_pair(field_name, field_separator, field_value)`. -/
def field (inp : Input) : Option ((List Char × List Char) × Input) :=
  match fieldName inp with
  | none => none
  | some (name, r1) =>
      match fieldSeparator r1 with
      | none => none
      | some r2 =>
          match fieldValue r2 with
          | none => none
          | some (value, r3) => some ((name, value), r3)

/-- The loop of `many1(field.terminated(line_ending))`: iterate
field-then-line-ending, stopping before the first failing iteration and
rolling its partial consumption back. -/
def fieldsLoop : Nat → Input → List (List Char × List Char) × Input
  | 0, inp => ([], inp)
  | fuel + 1, inp =>
      match field inp with
      | none => ([], inp)
      | some (nv, r1) =>
          match lineEnding r1 with
          | none => ([], inp)
          | some (_, r2) =>
              let (rest, r3) := fieldsLoop fuel r2
              (nv :: rest, r3)

/-- `many1(field.terminated(line_ending))`: fails when the first iteration
does. -/
def parseFields (inp : Input) : Option (List (List Char × List Char) × Input) :=
  match fieldsLoop inp.length inp with
  | ([], _) => none
  | (fs, rest) => some (fs, rest)

/-- `fields.entry(name).or_insert(Vec::new()).push(value)`: append `v` to
the entry for `k`, creating the entry when absent.  A `HashMap` carries no
key order; the association list records keys in first-insertion order and
is compared as a map via `lookupF`. -/
def addField (m : List (String × List String)) (k : String) (v : String) :
    List (String × List String) :=
  match m with
  | [] => [(k, [v])]
  | (k', vs) :: rest =>
      if k' = k then (k', vs ++ [v]) :: rest else (k', vs) :: addField rest k v

/-- Map lookup on the association list; absent keys give `[]`. -/
def lookupF (m : List (String × List String)) (k : String) : List String :=
  match m with
  | [] => []
  | (k', vs) :: rest => if k' = k then vs else lookupF rest k

/-- The `for (field_name, field_value) in fields_vec` loop of
`parse_metadata`. -/
def buildFields (fs : List (List Char × List Char)) :
    List (String × List String) :=
  fs.foldl (fun m nv => addField m (String.mk nv.1) (String.mk nv.2)) []

structure RFC822ish where
  fields : List (String × List String)
  body : Option String
deriving DecidableEq, Repr

/-- `RFC822ish::parse` / `parse_metadata`: the fields section, then an
optional body introduced by one more line ending; `final_parser` requires
the input to be fully consumed, so a leftover that is neither a body nor a
field is an error. -/
def RFC822ish.parse (s : String) : Option RFC822ish :=
  match parseFields s.data with
  | none => none
  | some (fs, rest) =>
      match lineEnding rest with
      | some (_, r2) => some ⟨buildFields fs, some (String.mk r2)⟩
      | none => if rest = [] then some ⟨buildFields fs, none⟩ else none

/-- `CoreMetadata::parse`: parse, then if a body is present append it as one
more value under `"Description"`. -/
def CoreMetadata.parse (s : String) : Option (List (String × List String)) :=
  match RFC822ish.parse s with
  | none => none
  | some r =>
      match r.body with
      | none => some r.fields
      | some b => some (addField r.fields "Description" b)

example : RFC822ish.parse "A: b\nC: d\n   continued\n\nthis is the\nbody!\n"
    = some ⟨[("A", ["b"]), ("C", ["d\n   continued"])],
            some "this is the\nbody!\n"⟩ := by decide

example : RFC822ish.parse "no: body\n" = some ⟨[("no", ["body"])], none⟩ := by
  decide

/-! ## Helper lemmas -/

theorem takeWhile_split (p : Char → Bool) :
    ∀ (l rest : Input), (∀ c ∈ l, p c = true) →
      (∀ c, rest.head? = some c → p c = false) →
      (l ++ rest).takeWhile p = l ∧ (l ++ rest).dropWhile p = rest
  | [], rest, _, hr => by
      cases rest with
      | nil => simp
      | cons c t =>
          simp [List.takeWhile_cons, List.dropWhile_cons, hr c rfl]
  | c :: t, rest, hl, hr => by
      have hc : p c = true := hl c (by simp)
      obtain ⟨h1, h2⟩ :=
        takeWhile_split p t rest (fun x hx => hl x (by simp [hx])) hr
      simp [List.takeWhile_cons, List.dropWhile_cons, hc, h1, h2]

theorem lineEnding_eq {inp : Input} {le r : Input}
    (h : lineEnding inp = some (le, r)) : inp = le ++ r := by
  unfold lineEnding at h
  split at h
  · obtain ⟨rfl, rfl⟩ : ['\r', '\n'] = le ∧ _ = r := by simpa using h
    rfl
  · obtain ⟨rfl, rfl⟩ : ['\r'] = le ∧ _ = r := by simpa using h
    rfl
  · obtain ⟨rfl, rfl⟩ : ['\n'] = le ∧ _ = r := by simpa using h
    rfl
  · exact absurd h (by simp)

theorem fieldName_eq {inp : Input} {n : List Char} {r : Input}
    (h : fieldName inp = some (n, r)) :
    inp = n ++ r ∧ n ≠ [] ∧ ∀ c ∈ n, is_field_name_char c = true := by
  unfold fieldName at h
  split at h
  · exact absurd h (by simp)
  · rename_i hne
    obtain ⟨rfl, rfl⟩ :
        inp.takeWhile is_field_name_char = n ∧
        inp.dropWhile is_field_name_char = r := by
      simpa using h
    exact ⟨(List.takeWhile_append_dropWhile _ _).symm, hne,
      fun c hc => List.mem_takeWhile_imp hc⟩

theorem fieldSeparator_eq {inp r : Input}
    (h : fieldSeparator inp = some r) : ∃ pre, inp = pre ++ r := by
  unfold fieldSeparator at h
  split at h
  · rename_i rest
    split at h
    · exact absurd h (by simp)
    · obtain rfl : rest.dropWhile isSpaceTab = r := by simpa using h
      exact ⟨':' :: rest.takeWhile isSpaceTab, by
        simp [List.takeWhile_append_dropWhile]⟩
  · exact absurd h (by simp)

theorem valueLinePiece_eq {inp : Input} {piece : List Char} {r : Input}
    (h : valueLinePiece inp = some (piece, r)) :
    inp = piece ++ r ∧ piece ≠ [] := by
  unfold valueLinePiece at h
  split at h
  · exact absurd h (by simp)
  · rename_i hne
    obtain ⟨rfl, rfl⟩ :
        inp.takeWhile (fun c => !isLineEndChar c) = piece ∧
        inp.dropWhile (fun c => !isLineEndChar c) = r := by
      simpa using h
    exact ⟨(List.takeWhile_append_dropWhile _ _).symm, hne⟩

theorem continuationMarker_eq {inp : Input} {con : List Char} {r : Input}
    (h : continuationMarker inp = some (con, r)) : inp = con ++ r := by
  unfold continuationMarker at h
  split at h
  · exact absurd h (by simp)
  · rename_i le r1 hle
    split at h
    · rename_i c r'
      split at h
      · obtain ⟨rfl, rfl⟩ : le ++ [c] = con ∧ r' = r := by simpa using h
        rw [lineEnding_eq hle]
        simp
      · exact absurd h (by simp)
    · exact absurd h (by simp)

theorem fieldValueLoop_eq :
    ∀ (fuel : Nat) (inp : Input),
      inp = (fieldValueLoop fuel inp).1 ++ (fieldValueLoop fuel inp).2
  | 0, inp => by simp [fieldValueLoop]
  | fuel + 1, inp => by
      rw [fieldValueLoop]
      split
      · simp
      · rename_i con r1 hcon
        split
        · simp
        · rename_i piece r2 hpiece
          have ih := fieldValueLoop_eq fuel r2
          rcases hm : fieldValueLoop fuel r2 with ⟨more, rest⟩
          have ih2 : r2 = more ++ rest := by rw [hm] at ih; exact ih
          show inp = (con ++ piece ++ more) ++ rest
          rw [continuationMarker_eq hcon, (valueLinePiece_eq hpiece).1, ih2]
          simp

theorem fieldValue_eq {inp : Input} {value : List Char} {r : Input}
    (h : fieldValue inp = some (value, r)) : inp = value ++ r := by
  unfold fieldValue at h
  split at h
  · exact absurd h (by simp)
  · rename_i piece r1 hpiece
    obtain ⟨rfl, rfl⟩ :
        piece ++ (fieldValueLoop r1.length r1).1 = value ∧
        (fieldValueLoop r1.length r1).2 = r := by
      simpa using h
    rw [(valueLinePiece_eq hpiece).1]
    have := fieldValueLoop_eq r1.length r1
    conv_lhs => rw [this]
    simp

theorem field_eq {inp : Input} {n v : List Char} {r : Input}
    (h : field inp = some ((n, v), r)) :
    (∃ pre, inp = pre ++ r ∧ pre ≠ []) ∧ n ≠ [] ∧
      ∀ c ∈ n, is_field_name_char c = true := by
  unfold field at h
  split at h
  · exact absurd h (by simp)
  · rename_i name r1 hname
    split at h
    · exact absurd h (by simp)
    · rename_i r2 hsep
      split at h
      · exact absurd h (by simp)
      · rename_i value r3 hval
        obtain ⟨⟨rfl, rfl⟩, rfl⟩ : (name = n ∧ value = v) ∧ r3 = r := by
          simpa using h
        obtain ⟨h1, hne, hchars⟩ := fieldName_eq hname
        obtain ⟨pre2, h2⟩ := fieldSeparator_eq hsep
        have h3 := fieldValue_eq hval
        refine ⟨⟨name ++ pre2 ++ value, ?_, ?_⟩, hne, hchars⟩
        · rw [h1, h2, h3]; simp
        · cases name with
          | nil => exact absurd rfl hne
          | cons a t => simp

theorem fieldsLoop_eq :
    ∀ (fuel : Nat) (inp : Input),
      (∃ pre, inp = pre ++ (fieldsLoop fuel inp).2) ∧
        ∀ nv ∈ (fieldsLoop fuel inp).1,
          nv.1 ≠ [] ∧ ∀ c ∈ nv.1, is_field_name_char c = true
  | 0, inp => by simp [fieldsLoop]
  | fuel + 1, inp => by
      rw [fieldsLoop]
      split
      · simp
      · rename_i nv r1 hf
        split
        · simp
        · rename_i le r2 hle
          obtain ⟨⟨pre, hpre⟩, hgood⟩ := fieldsLoop_eq fuel r2
          rcases hm : fieldsLoop fuel r2 with ⟨fsr, r3⟩
          have hpre2 : r2 = pre ++ r3 := by rw [hm] at hpre; exact hpre
          have hgood2 : ∀ x ∈ fsr,
              x.1 ≠ [] ∧ ∀ c ∈ x.1, is_field_name_char c = true := by
            intro x hx
            exact hgood x (by rw [hm]; exact hx)
          obtain ⟨⟨pre1, hpre1, _⟩, hn, hchars⟩ := field_eq hf
          constructor
          · refine ⟨pre1 ++ le ++ pre, ?_⟩
            show inp = pre1 ++ le ++ pre ++ r3
            rw [hpre1, lineEnding_eq hle, hpre2]
            simp
          · intro x hx
            have hx' : x ∈ nv :: fsr := hx
            rcases List.mem_cons.mp hx' with rfl | hx2
            · exact ⟨hn, hchars⟩
            · exact hgood2 x hx2

theorem parseFields_eq {inp : Input} {fs : List (List Char × List Char)}
    {rest : Input} (h : parseFields inp = some (fs, rest)) :
    (∃ pre, inp = pre ++ rest) ∧
      ∀ nv ∈ fs, nv.1 ≠ [] ∧ ∀ c ∈ nv.1, is_field_name_char c = true := by
  unfold parseFields at h
  split at h
  · exact absurd h (by simp)
  · rename_i fs' rest' hne heq
    obtain ⟨rfl, rfl⟩ : fs' = fs ∧ rest' = rest := by simpa using h
    have := fieldsLoop_eq inp.length inp
    rw [heq] at this
    exact this

theorem fieldsLoop_pos {fuel : Nat} (hf : fuel ≠ 0) (inp : Input) :
    fieldsLoop fuel inp
      = match field inp with
        | none => ([], inp)
        | some (nv, r1) =>
            match lineEnding r1 with
            | none => ([], inp)
            | some (_, r2) =>
                let (rest, r3) := fieldsLoop (fuel - 1) r2
                (nv :: rest, r3) := by
  cases fuel with
  | zero => exact absurd rfl hf
  | succ n => rfl

theorem fieldsLoop_nil : ∀ fuel, fieldsLoop fuel [] = ([], [])
  | 0 => rfl
  | fuel + 1 => by simp [fieldsLoop, field, fieldName]

theorem fnc_not_line_end {c : Char} (h : is_field_name_char c = true) :
    c ≠ '\r' ∧ c ≠ '\n' := by
  constructor <;> rintro rfl <;> exact absurd h (by decide)

theorem mk_ne_empty {l : List Char} (h : l ≠ []) : String.mk l ≠ "" := by
  intro he
  exact h (by simpa using congrArg String.data he)

theorem addField_good (P : String → Prop) (k v : String) (hk : P k) :
    ∀ (m : List (String × List String)),
      (∀ e ∈ m, P e.1 ∧ e.2 ≠ []) →
      ∀ e ∈ addField m k v, P e.1 ∧ e.2 ≠ []
  | [], _ => by
      intro e he
      simp only [addField, List.mem_singleton] at he
      subst he
      exact ⟨hk, by simp⟩
  | (ka, va) :: t, hm => by
      have hmt : ∀ e ∈ t, P e.1 ∧ e.2 ≠ [] :=
        fun e he => hm e (List.mem_cons_of_mem _ he)
      intro e he
      by_cases h : ka = k
      · rw [addField, if_pos h] at he
        rcases List.mem_cons.mp he with rfl | he2
        · exact ⟨(hm (ka, va) (List.mem_cons_self _ _)).1, by simp⟩
        · exact hmt e he2
      · rw [addField, if_neg h] at he
        rcases List.mem_cons.mp he with rfl | he2
        · exact hm (ka, va) (List.mem_cons_self _ _)
        · exact addField_good P k v hk t hmt e he2

theorem buildFields_good (P : String → Prop) :
    ∀ (fs : List (List Char × List Char)) (m : List (String × List String)),
      (∀ e ∈ m, P e.1 ∧ e.2 ≠ []) →
      (∀ nv ∈ fs, P (String.mk nv.1)) →
      ∀ e ∈ fs.foldl
          (fun m nv => addField m (String.mk nv.1) (String.mk nv.2)) m,
        P e.1 ∧ e.2 ≠ []
  | [], m, hm, _ => by simpa using hm
  | nv :: t, m, hm, hfs => by
      simp only [List.foldl_cons]
      exact buildFields_good P t _
        (addField_good P _ _ (hfs nv (List.mem_cons_self _ _)) m hm)
        (fun x hx => hfs x (List.mem_cons_of_mem _ hx))

theorem lookupF_addField (m : List (String × List String)) (k v : String)
    (k' : String) :
    lookupF (addField m k v) k'
      = if k = k' then lookupF m k' ++ [v] else lookupF m k' := by
  induction m with
  | nil =>
      by_cases h : k = k' <;> simp [addField, lookupF, h]
  | cons e t ih =>
      obtain ⟨ke, vse⟩ := e
      by_cases h1 : ke = k
      · subst h1
        by_cases h2 : ke = k' <;> simp [addField, lookupF, h2]
      · by_cases h2 : ke = k'
        · subst h2
          have h3 : ¬ (k = ke) := fun hh => h1 hh.symm
          simp [addField, lookupF, h1, h3]
        · simp [addField, lookupF, h1, h2, ih]

theorem lookupF_foldl (k : String) :
    ∀ (fs : List (List Char × List Char)) (m : List (String × List String)),
      lookupF
        (fs.foldl (fun m nv => addField m (String.mk nv.1) (String.mk nv.2)) m)
        k
      = lookupF m k ++
          (fs.filter (fun nv => decide (String.mk nv.1 = k))).map
            (fun nv => String.mk nv.2)
  | [], m => by simp
  | nv :: t, m => by
      simp only [List.foldl_cons]
      rw [lookupF_foldl k t]
      by_cases h : String.mk nv.1 = k
      · rw [lookupF_addField]
        simp [h, List.filter_cons]
      · rw [lookupF_addField]
        simp [h, List.filter_cons]

theorem lookupF_buildFields (fs : List (List Char × List Char)) (k : String) :
    lookupF (buildFields fs) k
      = (fs.filter (fun nv => decide (String.mk nv.1 = k))).map
          (fun nv => String.mk nv.2) := by
  have h := lookupF_foldl k fs []
  simpa [buildFields, lookupF] using h

/-! ## Claims -/

/-- Claim C1: parsing `"A: b\nC: d\n   continued\n\nthis is the\nbody!\n"`
succeeds with fields `A ↦ ["b"]`, `C ↦ ["d\n   continued"]` (the
continuation's line ending kept verbatim) and body
`some "this is the\nbody!\n"` (everything after the blank line, verbatim). -/
theorem claim_C1 :
    RFC822ish.parse "A: b\nC: d\n   continued\n\nthis is the\nbody!\n"
      = some ⟨[("A", ["b"]), ("C", ["d\n   continued"])],
              some "this is the\nbody!\n"⟩ := by
  decide

/-- Claim C2 (evaluation at the failing input): `"A:b\n"` — a field with no
whitespace after the colon — is rejected by `parse_metadata`, because
`is_a(" \t")` demands at least one space or tab; the file's own grammar
comment says the separator is a colon plus zero or more spaces/tabs. -/
theorem claim_C2 : RFC822ish.parse "A:b\n" = none := by decide

/-- Claim C3 (evaluation at the failing input): `"no: trailing newline"` is
rejected by `parse_metadata`, because `many1(field.terminated(line_ending))`
requires every field, the last included, to be followed by a line ending;
the repository's own test expects this input to parse. -/
theorem claim_C3 : RFC822ish.parse "no: trailing newline" = none := by decide

/-- Claim C4 counterexample: the claim fails for the empty value (the parse
errors instead of succeeding) and for the value `" x"` (the leading space is
absorbed by the separator, so the parsed value is `"x"`, not `" x"`). -/
theorem claim_C4_counterexample :
    RFC822ish.parse ("Name: " ++ "" ++ "\n") = none ∧
    RFC822ish.parse ("Name: " ++ " x" ++ "\n")
      = some ⟨[("Name", ["x"])], none⟩ := by
  constructor <;> decide

/-- Claim C6: the empty input, any input whose first character is a space or
tab, `"bad key name: whee\n"` and `": no key name\n"` are all rejected. -/
theorem claim_C6 :
    RFC822ish.parse "" = none ∧
    (∀ (c : Char) (s : List Char), isSpaceTab c = true →
        RFC822ish.parse (String.mk (c :: s)) = none) ∧
    RFC822ish.parse "bad key name: whee\n" = none ∧
    RFC822ish.parse ": no key name\n" = none := by
  refine ⟨by decide, ?_, by decide, by decide⟩
  intro c s hc
  have hcc : c = ' ' ∨ c = '\t' := by
    simpa [isSpaceTab] using hc
  have hfn : is_field_name_char c = false := by
    rcases hcc with rfl | rfl <;> decide
  have hpf : parseFields (String.mk (c :: s)).data = none := by
    show parseFields (c :: s) = none
    have hfl : fieldsLoop (c :: s).length (c :: s) = ([], c :: s) := by
      rw [fieldsLoop_pos (by simp)]
      have hfield : field (c :: s) = none := by
        simp [field, fieldName, List.takeWhile_cons, hfn]
      simp [hfield]
    rw [parseFields, hfl]
  rw [RFC822ish.parse, hpf]

/-- Claim C6 witness: a document starting with a space is rejected. -/
theorem claim_C6_witness :
    RFC822ish.parse (String.mk (' ' :: ['x'])) = none :=
  claim_C6.2.1 ' ' ['x'] (by decide)

/-- Claim C7: duplicate field names accumulate in order of appearance; the
literal example parses to `duplicate ↦ ["one","two","three"]`,
`another ↦ ["field"]`, and in general each key's value sequence is exactly
the values of its occurrences in input order, never overwritten. -/
theorem claim_C7 :
    (RFC822ish.parse
        "duplicate: one\nduplicate: two\nanother: field\nduplicate: three\n"
      = some ⟨[("duplicate", ["one", "two", "three"]), ("another", ["field"])],
              none⟩) ∧
    ∀ (fs : List (List Char × List Char)) (k : String),
      lookupF (buildFields fs) k
        = (fs.filter (fun nv => decide (String.mk nv.1 = k))).map
            (fun nv => String.mk nv.2) :=
  ⟨by decide, lookupF_buildFields⟩

/-- Claim C10: when the fields section consumes the whole input (the last
field's line ending is right before EOF) the body is `none`; when exactly
one more line-ending token remains, the body is `some ""`. -/
theorem claim_C10 (s : String) (fs : List (List Char × List Char)) :
    (parseFields s.data = some (fs, []) →
        RFC822ish.parse s = some ⟨buildFields fs, none⟩) ∧
    (∀ le, (le = ['\n'] ∨ le = ['\r'] ∨ le = ['\r', '\n']) →
        parseFields s.data = some (fs, le) →
        RFC822ish.parse s = some ⟨buildFields fs, some ""⟩) := by
  constructor
  · intro h
    rw [RFC822ish.parse, h]
    rfl
  · intro le hle h
    rw [RFC822ish.parse, h]
    rcases hle with rfl | rfl | rfl <;> rfl

/-- Claim C10 witness: `"A: b\n"` has no body, `"A: b\n\n"` has body `""`. -/
theorem claim_C10_witness :
    RFC822ish.parse "A: b\n" = some ⟨buildFields [(['A'], ['b'])], none⟩ ∧
    RFC822ish.parse "A: b\n\n"
      = some ⟨buildFields [(['A'], ['b'])], some ""⟩ :=
  ⟨(claim_C10 "A: b\n" [(['A'], ['b'])]).1 (by decide),
   (claim_C10 "A: b\n\n" [(['A'], ['b'])]).2 ['\n'] (Or.inl rfl) (by decide)⟩

/-- Claim C5: `CoreMetadata.parse` succeeds exactly when `RFC822ish.parse`
does; on success the fields are the parsed fields, except that a present
body is appended as one more value at the end of the `"Description"` key's
sequence, all other keys unchanged. -/
theorem claim_C5 (s : String) :
    (CoreMetadata.parse s = none ↔ RFC822ish.parse s = none) ∧
    (∀ r, RFC822ish.parse s = some r →
      ∃ m, CoreMetadata.parse s = some m ∧
        (∀ k, k ≠ "Description" → lookupF m k = lookupF r.fields k) ∧
        (r.body = none → m = r.fields) ∧
        (∀ b, r.body = some b →
          lookupF m "Description"
            = lookupF r.fields "Description" ++ [b])) := by
  constructor
  · rw [CoreMetadata.parse]
    cases h : RFC822ish.parse s with
    | none => simp
    | some r => cases hb : r.body <;> simp [hb]
  · intro r h
    rw [CoreMetadata.parse, h]
    cases hb : r.body with
    | none =>
        refine ⟨r.fields, by simp [hb], fun k _ => rfl, fun _ => rfl, ?_⟩
        intro b hb2
        exact absurd hb2 (by simp)
    | some b =>
        refine ⟨addField r.fields "Description" b, by simp [hb], ?_, ?_, ?_⟩
        · intro k hk
          rw [lookupF_addField, if_neg (fun h2 => hk h2.symm)]
        · intro h0
          exact absurd h0 (by simp)
        · intro b2 hb2
          obtain rfl : b = b2 := by simpa using hb2
          rw [lookupF_addField]
          simp

/-- Claim C5 witness: on `"a: b\n\nc"` the body `"c"` is appended under
`"Description"`. -/
theorem claim_C5_witness :
    ∃ m, CoreMetadata.parse "a: b\n\nc" = some m ∧
      lookupF m "Description" = ["c"] := by
  obtain ⟨m, hm, _, _, hd⟩ :=
    (claim_C5 "a: b\n\nc").2 ⟨[("a", ["b"])], some "c"⟩ (by decide)
  refine ⟨m, hm, ?_⟩
  rw [hd "c" rfl]
  decide

/-- Claim C9: on any successful parse, every key of the field map carries a
non-empty value sequence, every key is non-empty and free of `\r`/`\n`, and
the body, when present, is a verbatim suffix (hence substring) of the
input. -/
theorem claim_C9 (s : String) (r : RFC822ish)
    (h : RFC822ish.parse s = some r) :
    (∀ k vs, (k, vs) ∈ r.fields →
        vs ≠ [] ∧ k ≠ "" ∧ ∀ c ∈ k.data, c ≠ '\r' ∧ c ≠ '\n') ∧
    (∀ b, r.body = some b → ∃ pre, s.data = pre ++ b.data) := by
  rw [RFC822ish.parse] at h
  split at h
  · exact absurd h (by simp)
  · rename_i fs rest hpf
    obtain ⟨⟨pre, hpre⟩, hgood⟩ := parseFields_eq hpf
    have hfields : ∀ e ∈ buildFields fs,
        (e.1 ≠ "" ∧ ∀ c ∈ e.1.data, c ≠ '\r' ∧ c ≠ '\n') ∧ e.2 ≠ [] := by
      apply buildFields_good
        (fun k => k ≠ "" ∧ ∀ c ∈ k.data, c ≠ '\r' ∧ c ≠ '\n') fs []
      · intro e he
        simp at he
      · intro nv hnv
        obtain ⟨hn, hchars⟩ := hgood nv hnv
        refine ⟨mk_ne_empty hn, ?_⟩
        intro c hc
        exact fnc_not_line_end (hchars c hc)
    split at h
    · rename_i le r2 hle
      obtain rfl : (⟨buildFields fs, some (String.mk r2)⟩ : RFC822ish) = r := by
        simpa using h
      constructor
      · intro k vs hkvs
        obtain ⟨⟨h1, h2⟩, h3⟩ := hfields (k, vs) hkvs
        exact ⟨h3, h1, h2⟩
      · intro b hb
        obtain rfl : String.mk r2 = b := by simpa using hb
        refine ⟨pre ++ le, ?_⟩
        rw [hpre, lineEnding_eq hle]
        simp
    · rename_i hno
      split at h
      · rename_i hrest
        obtain rfl : (⟨buildFields fs, none⟩ : RFC822ish) = r := by
          simpa using h
        constructor
        · intro k vs hkvs
          obtain ⟨⟨h1, h2⟩, h3⟩ := hfields (k, vs) hkvs
          exact ⟨h3, h1, h2⟩
        · intro b hb
          cases hb
      · exact absurd h (by simp)

/-- Claim C9 witness: instantiation on `"A: b\n\nxy"`. -/
theorem claim_C9_witness :
    ∃ pre, ("A: b\n\nxy" : String).data = pre ++ ("xy" : String).data :=
  (claim_C9 "A: b\n\nxy" ⟨[("A", ["b"])], some "xy"⟩ (by decide)).2 "xy" rfl

theorem char_eq_colon_iff {c : Char} : c = ':' ↔ c.toNat = 0x3A := by
  constructor
  · rintro rfl
    rfl
  · intro h
    have h2 := Char.ofNat_toNat c
    rw [h] at h2
    rw [← h2]

/-- Claim C8: a character is accepted inside a field name exactly when its
code point lies in 0x21–0x39 or 0x3B–0x7E, and a field name is the longest
non-empty run of accepted characters, stopping at the first character
outside the set. -/
theorem claim_C8 :
    (∀ c : Char, is_field_name_char c = true ↔
        (0x21 ≤ c.toNat ∧ c.toNat ≤ 0x39) ∨
        (0x3B ≤ c.toNat ∧ c.toNat ≤ 0x7E)) ∧
    (∀ (l rest : Input), l ≠ [] → (∀ c ∈ l, is_field_name_char c = true) →
        (∀ c, rest.head? = some c → is_field_name_char c = false) →
        fieldName (l ++ rest) = some (l, rest)) := by
  constructor
  · intro c
    simp only [is_field_name_char, Bool.and_eq_true, decide_eq_true_eq]
    constructor
    · rintro ⟨⟨h1, h2⟩, h3⟩
      have h4 : c.toNat ≠ 0x3A := fun hh => h3 (char_eq_colon_iff.mpr hh)
      omega
    · rintro (⟨h1, h2⟩ | ⟨h1, h2⟩) <;>
        refine ⟨⟨by omega, by omega⟩, fun hcol => ?_⟩ <;>
        · have := char_eq_colon_iff.mp hcol
          omega
  · intro l rest hne hl hr
    obtain ⟨h1, h2⟩ := takeWhile_split is_field_name_char l rest hl hr
    rw [fieldName, h1, h2, if_neg hne]

/-- Claim C8 witness: `"A"` followed by a colon. -/
theorem claim_C8_witness :
    fieldName (['A'] ++ [':']) = some (['A'], [':']) :=
  claim_C8.2 ['A'] [':'] (by decide) (by decide)
    (by
      intro c hcc
      obtain rfl : ':' = c := by simpa using hcc
      decide)

/-- Claim C4 (amended): for every non-empty value containing no `\r` or
`\n` and not starting with a space or tab, parsing
`"Name: " + value + "\n"` succeeds and maps `"Name"` to `[value]` with no
body.  (The unamended claim fails for the empty value, which the parser
rejects, and for values starting with space/tab, which the separator
swallows — see the counterexample.) -/
theorem claim_C4 (v : String) (hne : v ≠ "")
    (hnl : ∀ c ∈ v.data, c ≠ '\r' ∧ c ≠ '\n')
    (hsp : ∀ c, v.data.head? = some c → isSpaceTab c = false) :
    RFC822ish.parse ("Name: " ++ v ++ "\n")
      = some ⟨[("Name", [v])], none⟩ := by
  have hvne : v.data ≠ [] := fun h0 => hne (String.ext (by rw [h0]))
  have hdata : ("Name: " ++ v ++ "\n").data
      = 'N' :: 'a' :: 'm' :: 'e' :: ':' :: ' ' :: (v.data ++ ['\n']) := by
    rw [String.data_append, String.data_append]
    rfl
  have hN : is_field_name_char 'N' = true := by decide
  have ha : is_field_name_char 'a' = true := by decide
  have hm : is_field_name_char 'm' = true := by decide
  have he : is_field_name_char 'e' = true := by decide
  have hcol : is_field_name_char ':' = false := by decide
  have hname :
      fieldName ('N' :: 'a' :: 'm' :: 'e' :: ':' :: ' ' :: (v.data ++ ['\n']))
        = some (['N', 'a', 'm', 'e'], ':' :: ' ' :: (v.data ++ ['\n'])) := by
    rw [fieldName]
    simp [List.takeWhile_cons, List.dropWhile_cons, hN, ha, hm, he, hcol]
  have hsp2 : ∀ c, (v.data ++ ['\n']).head? = some c →
      isSpaceTab c = false := by
    intro c hcc
    cases hv : v.data with
    | nil =>
        rw [hv] at hcc
        obtain rfl : '\n' = c := by simpa using hcc
        decide
    | cons a t =>
        rw [hv] at hcc
        obtain rfl : a = c := by simpa using hcc
        exact hsp a (by rw [hv]; rfl)
  obtain ⟨hstw, hsdw⟩ :=
    takeWhile_split isSpaceTab [] (v.data ++ ['\n']) (by simp) hsp2
  simp only [List.nil_append] at hstw hsdw
  have hsptrue : isSpaceTab ' ' = true := by decide
  have hsep : fieldSeparator (':' :: ' ' :: (v.data ++ ['\n']))
      = some (v.data ++ ['\n']) := by
    simp [fieldSeparator, List.takeWhile_cons, List.dropWhile_cons, hsptrue,
      hstw, hsdw]
  have hpass : ∀ c ∈ v.data, (fun c => !isLineEndChar c) c = true := by
    intro c hcc
    obtain ⟨h1, h2⟩ := hnl c hcc
    simp [isLineEndChar, h1, h2]
  have hnlend : ∀ c, (['\n'] : Input).head? = some c →
      (fun c => !isLineEndChar c) c = false := by
    intro c hcc
    obtain rfl : '\n' = c := by simpa using hcc
    decide
  obtain ⟨hvtw, hvdw⟩ :=
    takeWhile_split (fun c => !isLineEndChar c) v.data ['\n'] hpass hnlend
  have hpiece : valueLinePiece (v.data ++ ['\n']) = some (v.data, ['\n']) := by
    rw [valueLinePiece, hvtw, hvdw, if_neg hvne]
  have hloop1 : fieldValueLoop 1 ['\n'] = ([], ['\n']) := by decide
  have hval : fieldValue (v.data ++ ['\n']) = some (v.data, ['\n']) := by
    rw [fieldValue, hpiece]
    simp [hloop1]
  have hfield :
      field ('N' :: 'a' :: 'm' :: 'e' :: ':' :: ' ' :: (v.data ++ ['\n']))
        = some ((['N', 'a', 'm', 'e'], v.data), ['\n']) := by
    rw [field, hname]
    simp [hsep, hval]
  have hLE : lineEnding ['\n'] = some (['\n'], []) := rfl
  have hfl :
      fieldsLoop
          ('N' :: 'a' :: 'm' :: 'e' :: ':' :: ' ' :: (v.data ++ ['\n'])).length
          ('N' :: 'a' :: 'm' :: 'e' :: ':' :: ' ' :: (v.data ++ ['\n']))
        = ([(['N', 'a', 'm', 'e'], v.data)], []) := by
    rw [fieldsLoop_pos (by simp)]
    rw [hfield]
    simp [hLE, fieldsLoop_nil]
  have hpf :
      parseFields ('N' :: 'a' :: 'm' :: 'e' :: ':' :: ' ' :: (v.data ++ ['\n']))
        = some ([(['N', 'a', 'm', 'e'], v.data)], []) := by
    rw [parseFields, hfl]
  rw [RFC822ish.parse, hdata, hpf]
  have hle0 : lineEnding ([] : Input) = none := rfl
  have hmkv : String.mk v.data = v := String.ext rfl
  have hmkn : String.mk ['N', 'a', 'm', 'e'] = "Name" := by decide
  simp [hle0, buildFields, addField, hmkn, hmkv]

/-- Claim C4 witness: value `"b"`. -/
theorem claim_C4_witness :
    RFC822ish.parse ("Name: " ++ "b" ++ "\n")
      = some ⟨[("Name", ["b"])], none⟩ :=
  claim_C4 "b" (by decide) (by decide)
    (by
      intro c hcc
      have hcc2 : some 'b' = some c := hcc
      obtain rfl : 'b' = c := by simpa using hcc2
      decide)
